import Mathlib

/-!
Verification of the annotation-conversion core of the CheXpert repository
(`final/training/convert_annotations.py`): IoU geometry, simplified Weighted
Boxes Fusion (WBF), YOLO label conversion, and the train/val split partitioner.

Coordinates and scores are modelled as rationals (`ℚ`); Python floats are
treated as exact arithmetic.  Lists model Python lists; association lists
model dicts (whose iteration order in Python is insertion order).
-/

namespace CheXpert

/-- An axis-aligned box `(x1, y1, x2, y2)`, as used throughout
`convert_annotations.py`. -/
structure Box where
  x1 : ℚ
  y1 : ℚ
  x2 : ℚ
  y2 : ℚ
deriving DecidableEq, Repr

/-- A box is valid when it has positive extent in both axes
(the condition `x2 > x1 and y2 > y1` used at line 243 of the source). -/
def Box.valid (b : Box) : Prop := b.x1 < b.x2 ∧ b.y1 < b.y2

/-- Signed area `(x2 - x1) * (y2 - y1)` of a box, as computed inline in
`_iou` (lines 104-105). -/
def Box.area (b : Box) : ℚ := (b.x2 - b.x1) * (b.y2 - b.y1)

/-- Embedding of `_iou` (lines 96-108): intersection over union with the
intersection clamped at 0, returning 0 when the union is not positive. -/
def _iou (box1 box2 : Box) : ℚ :=
  let x1 := max box1.x1 box2.x1
  let y1 := max box1.y1 box2.y1
  let x2 := min box1.x2 box2.x2
  let y2 := min box1.y2 box2.y2
  let inter := max 0 (x2 - x1) * max 0 (y2 - y1)
  let area1 := (box1.x2 - box1.x1) * (box1.y2 - box1.y1)
  let area2 := (box2.x2 - box2.x1) * (box2.y2 - box2.y1)
  let union := area1 + area2 - inter
  if 0 < union then inter / union else 0

/-- The intersection term of `_iou` is nonnegative. -/
theorem iou_inter_nonneg (a b : Box) :
    0 ≤ max 0 (min a.x2 b.x2 - max a.x1 b.x1) * max 0 (min a.y2 b.y2 - max a.y1 b.y1) :=
  mul_nonneg (le_max_left 0 _) (le_max_left 0 _)

/-- The value of `_iou` always lands in the unit interval, for arbitrary (even
degenerate) boxes: the intersection is clamped at 0 and never exceeds the
union whenever the union is positive. -/
theorem iou_unit (a b : Box) : 0 ≤ _iou a b ∧ _iou a b ≤ 1 := by
  obtain ⟨ax1, ay1, ax2, ay2⟩ := a
  obtain ⟨bx1, by1, bx2, by2⟩ := b
  simp only [_iou]
  by_cases hu : 0 < (ax2 - ax1) * (ay2 - ay1) + (bx2 - bx1) * (by2 - by1) -
      max 0 (min ax2 bx2 - max ax1 bx1) * max 0 (min ay2 by2 - max ay1 by1)
  · rw [if_pos hu]
    have hI : 0 ≤ max 0 (min ax2 bx2 - max ax1 bx1) * max 0 (min ay2 by2 - max ay1 by1) :=
      mul_nonneg (le_max_left 0 _) (le_max_left 0 _)
    refine ⟨div_nonneg hI hu.le, ?_⟩
    rw [div_le_one hu]
    rcases le_or_lt (min ax2 bx2 - max ax1 bx1) 0 with hw | hw
    · rw [max_eq_left hw] at hu ⊢
      simpa using hu.le
    rcases le_or_lt (min ay2 by2 - max ay1 by1) 0 with hh | hh
    · rw [max_eq_left hh] at hu ⊢
      simpa using hu.le
    rw [max_eq_right hw.le, max_eq_right hh.le]
    have h1 : min ax2 bx2 - max ax1 bx1 ≤ ax2 - ax1 :=
      sub_le_sub (min_le_left _ _) (le_max_left _ _)
    have h2 : min ax2 bx2 - max ax1 bx1 ≤ bx2 - bx1 :=
      sub_le_sub (min_le_right _ _) (le_max_right _ _)
    have h3 : min ay2 by2 - max ay1 by1 ≤ ay2 - ay1 :=
      sub_le_sub (min_le_left _ _) (le_max_left _ _)
    have h4 : min ay2 by2 - max ay1 by1 ≤ by2 - by1 :=
      sub_le_sub (min_le_right _ _) (le_max_right _ _)
    nlinarith [mul_le_mul h1 h3 hh.le (by linarith), mul_le_mul h2 h4 hh.le (by linarith)]
  · rw [if_neg hu]
    norm_num

/-- The function `_iou` is symmetric, with no validity assumption. -/
theorem iou_symm (a b : Box) : _iou a b = _iou b a := by
  obtain ⟨ax1, ay1, ax2, ay2⟩ := a
  obtain ⟨bx1, by1, bx2, by2⟩ := b
  simp only [_iou]
  rw [min_comm ax2 bx2, max_comm ax1 bx1, min_comm ay2 by2, max_comm ay1 by1,
    add_comm ((ax2 - ax1) * (ay2 - ay1)) ((bx2 - bx1) * (by2 - by1))]

/-- A valid box has IoU `1` with itself. -/
theorem iou_self (b : Box) (hb : b.valid) : _iou b b = 1 := by
  obtain ⟨x1, y1, x2, y2⟩ := b
  obtain ⟨hx, hy⟩ := hb
  simp only [_iou, min_self, max_self]
  rw [max_eq_right (sub_nonneg.2 hx.le), max_eq_right (sub_nonneg.2 hy.le)]
  have hA : 0 < (x2 - x1) * (y2 - y1) := mul_pos (sub_pos.2 hx) (sub_pos.2 hy)
  have he : (x2 - x1) * (y2 - y1) + (x2 - x1) * (y2 - y1) - (x2 - x1) * (y2 - y1)
      = (x2 - x1) * (y2 - y1) := by ring
  rw [he, if_pos hA, div_self hA.ne']

/-- C6: for every valid box `b`, `_iou b b = 1`; and for all valid `a`, `b`,
`_iou` is symmetric and lands in `[0, 1]`. -/
theorem iou_algebraic_properties :
    (∀ b : Box, b.valid → _iou b b = 1) ∧
    (∀ a b : Box, a.valid → b.valid → _iou a b = _iou b a) ∧
    (∀ a b : Box, a.valid → b.valid → 0 ≤ _iou a b ∧ _iou a b ≤ 1) :=
  ⟨fun b hb => iou_self b hb,
   fun a b _ _ => iou_symm a b,
   fun a b _ _ => iou_unit a b⟩

/-- Witness for C6 at the concrete valid boxes `(0,0,1,1)` and
`(0,0,2,1)`. -/
theorem iou_algebraic_properties_witness :
    _iou ⟨0, 0, 1, 1⟩ ⟨0, 0, 1, 1⟩ = 1 ∧
    _iou ⟨0, 0, 1, 1⟩ ⟨0, 0, 2, 1⟩ = _iou ⟨0, 0, 2, 1⟩ ⟨0, 0, 1, 1⟩ ∧
    0 ≤ _iou ⟨0, 0, 1, 1⟩ ⟨0, 0, 2, 1⟩ ∧ _iou ⟨0, 0, 1, 1⟩ ⟨0, 0, 2, 1⟩ ≤ 1 :=
  ⟨iou_algebraic_properties.1 ⟨0, 0, 1, 1⟩ (by constructor <;> norm_num),
   iou_algebraic_properties.2.1 ⟨0, 0, 1, 1⟩ ⟨0, 0, 2, 1⟩
     (by constructor <;> norm_num) (by constructor <;> norm_num),
   iou_algebraic_properties.2.2 ⟨0, 0, 1, 1⟩ ⟨0, 0, 2, 1⟩
     (by constructor <;> norm_num) (by constructor <;> norm_num)⟩

/-- C7: `_iou` returns `0` whenever either argument has zero-or-negative
area (no division by zero occurs: the `union > 0` guard takes the `0`
branch or the numerator is `0`), and for arbitrary input boxes the result
lies in `[0, 1]`. -/
theorem iou_degenerate_and_clamped :
    (∀ a b : Box, a.area ≤ 0 ∨ b.area ≤ 0 → _iou a b = 0) ∧
    (∀ a b : Box, 0 ≤ _iou a b ∧ _iou a b ≤ 1) := by
  constructor
  · intro a b hdeg
    have key : ∀ u v : Box, u.area ≤ 0 → _iou u v = 0 := by
      intro u v hu
      obtain ⟨ux1, uy1, ux2, uy2⟩ := u
      obtain ⟨vx1, vy1, vx2, vy2⟩ := v
      simp only [Box.area] at hu
      simp only [_iou]
      have hzero : max 0 (min ux2 vx2 - max ux1 vx1) * max 0 (min uy2 vy2 - max uy1 vy1) = 0 := by
        rcases mul_nonpos_iff.1 hu with ⟨_, hy⟩ | ⟨hx, _⟩
        · have : min uy2 vy2 - max uy1 vy1 ≤ 0 := by
            have := min_le_left uy2 vy2
            have := le_max_left uy1 vy1
            linarith
          rw [max_eq_left this, mul_zero]
        · have : min ux2 vx2 - max ux1 vx1 ≤ 0 := by
            have := min_le_left ux2 vx2
            have := le_max_left ux1 vx1
            linarith
          rw [max_eq_left this, zero_mul]
      rw [hzero]
      split <;> simp
    rcases hdeg with ha | hb
    · exact key a b ha
    · rw [iou_symm]; exact key b a hb
  · exact iou_unit

/-- Witness for C7: a degenerate box (zero width) against a valid one
yields `0`, and the clamping bounds hold at a concrete pair. -/
theorem iou_degenerate_and_clamped_witness :
    _iou ⟨0, 0, 0, 1⟩ ⟨0, 0, 1, 1⟩ = 0 ∧
    0 ≤ _iou ⟨0, 0, 0, 1⟩ ⟨0, 0, 1, 1⟩ ∧ _iou ⟨0, 0, 0, 1⟩ ⟨0, 0, 1, 1⟩ ≤ 1 :=
  ⟨iou_degenerate_and_clamped.1 ⟨0, 0, 0, 1⟩ ⟨0, 0, 1, 1⟩
     (Or.inl (by simp [Box.area])),
   iou_degenerate_and_clamped.2 ⟨0, 0, 0, 1⟩ ⟨0, 0, 1, 1⟩⟩

/-- A scored, labelled box: one entry of the parallel
`boxes_list` / `scores_list` / `labels_list` arrays fed to
`weighted_boxes_fusion` (a triple zipped into a record). -/
structure SBox where
  box : Box
  score : ℚ
  label : ℤ
deriving DecidableEq, Repr

/-- Pooling step of `weighted_boxes_fusion` (lines 38-46): flatten the
per-annotator lists in encounter order, keeping only boxes whose score is
strictly above `skip_box_thr`. -/
def pool (boxes_list : List (List SBox)) (skip_box_thr : ℚ) : List SBox :=
  boxes_list.flatten.filter (fun b => skip_box_thr < b.score)

/-- Inner clustering loop (lines 75-81): scan the not-yet-used boxes in
order; a candidate joins the seed's cluster iff its IoU with the seed
exceeds `iou_thr`.  Returns (members joined, boxes left unclustered). -/
def scanCluster (iou_thr : ℚ) (seed : Box) : List SBox → List SBox × List SBox
  | [] => ([], [])
  | b :: rest =>
    let p := scanCluster iou_thr seed rest
    if iou_thr < _iou seed b.box then (b :: p.1, p.2) else (p.1, b :: p.2)

/-- Outer clustering loop (lines 67-81): repeatedly take the first
unclustered box as a seed and collect its cluster.  The fuel argument
(instantiated with the list length in `fuseClusters`) bounds the number of
iterations; each iteration strictly shrinks the unclustered list, so the
fuel is never exhausted. -/
def fuseGo (iou_thr : ℚ) : ℕ → List SBox → List (List SBox)
  | _, [] => []
  | 0, _ :: _ => []
  | fuel + 1, seed :: rest =>
    let p := scanCluster iou_thr seed.box rest
    (seed :: p.1) :: fuseGo iou_thr fuel p.2

/-- Greedy seed-anchored clustering of one label's pooled boxes
(lines 66-81). -/
def fuseClusters (iou_thr : ℚ) (l : List SBox) : List (List SBox) :=
  fuseGo iou_thr l.length l

/-- One coordinate of `np.average(cluster_boxes, weights=weights)` at
line 86, with the weights pre-normalized by their sum (line 85). -/
def mergedCoord (C : List SBox) (f : Box → ℚ) : ℚ :=
  (C.map (fun b => b.score / (C.map (·.score)).sum * f b.box)).sum /
    (C.map (fun b => b.score / (C.map (·.score)).sum)).sum

/-- The consensus box of a cluster (lines 83-86). -/
def mergedBox (C : List SBox) : Box :=
  ⟨mergedCoord C Box.x1, mergedCoord C Box.y1, mergedCoord C Box.x2, mergedCoord C Box.y2⟩

/-- The consensus score `np.mean(cluster_scores)` of a cluster (line 87). -/
def mergedScore (C : List SBox) : ℚ :=
  (C.map (·.score)).sum / (C.length : ℚ)

/-- Embedding of `weighted_boxes_fusion` (lines 26-93): pool the boxes,
group them by label (`np.unique` returns the sorted distinct labels),
cluster each label's boxes greedily, and emit one weighted-average box per
cluster. -/
def weighted_boxes_fusion (boxes_list : List (List SBox))
    (iou_thr skip_box_thr : ℚ) : List SBox :=
  ((((pool boxes_list skip_box_thr).map (·.label)).dedup).insertionSort (· ≤ ·)).flatMap
    (fun l =>
      (fuseClusters iou_thr ((pool boxes_list skip_box_thr).filter (fun b => b.label = l))).map
        (fun C => ⟨mergedBox C, mergedScore C, l⟩))

/-- The inner scan splits the unclustered list into the candidates whose
IoU with the seed exceeds the threshold and the rest, preserving order. -/
theorem scanCluster_eq (iou_thr : ℚ) (seed : Box) (l : List SBox) :
    scanCluster iou_thr seed l =
      (l.filter (fun b => iou_thr < _iou seed b.box),
       l.filter (fun b => _iou seed b.box ≤ iou_thr)) := by
  induction l with
  | nil => rfl
  | cons b rest ih =>
    simp only [scanCluster, ih, List.filter_cons]
    by_cases h : iou_thr < _iou seed b.box
    · simp [h, not_le.2 h]
    · simp [h, not_lt.1 h]

/-- Clustering never emits more clusters than input boxes. -/
theorem fuseGo_length_le (iou_thr : ℚ) :
    ∀ (fuel : ℕ) (l : List SBox), (fuseGo iou_thr fuel l).length ≤ l.length := by
  intro fuel
  induction fuel with
  | zero => intro l; cases l <;> simp [fuseGo]
  | succ n ih =>
    intro l
    cases l with
    | nil => simp [fuseGo]
    | cons s rest =>
      simp only [fuseGo, List.length_cons]
      have h1 := ih (scanCluster iou_thr s.box rest).2
      have h2 : (scanCluster iou_thr s.box rest).2.length ≤ rest.length := by
        rw [scanCluster_eq]
        exact List.length_filter_le _ rest
      omega

/-- Every cluster is its seed followed by exactly the unclustered boxes
whose IoU with that seed exceeds the threshold; the seed together with
that unclustered pool is an ordered sublist of the input. -/
theorem fuseGo_clusters (iou_thr : ℚ) :
    ∀ (fuel : ℕ) (l : List SBox), ∀ C ∈ fuseGo iou_thr fuel l,
      ∃ s unc, (s :: unc).Sublist l ∧
        C = s :: unc.filter (fun b => iou_thr < _iou s.box b.box) := by
  intro fuel
  induction fuel with
  | zero =>
    intro l C hC
    cases l <;> simp [fuseGo] at hC
  | succ n ih =>
    intro l C hC
    cases l with
    | nil => simp [fuseGo] at hC
    | cons s rest =>
      simp only [fuseGo, scanCluster_eq, List.mem_cons] at hC
      rcases hC with h | h
      · exact ⟨s, rest, List.Sublist.refl _, h⟩
      · obtain ⟨s', unc, hsub, heq⟩ := ih _ C h
        exact ⟨s', unc, hsub.trans ((List.filter_sublist rest).cons s), heq⟩

/-- Summing `g b / c` over a list equals the sum divided by `c`. -/
theorem sum_map_div (C : List SBox) (g : SBox → ℚ) (c : ℚ) :
    (C.map (fun b => g b / c)).sum = (C.map g).sum / c := by
  induction C with
  | nil => simp
  | cons b r ih => simp [ih, add_div]

/-- With a nonzero score total, the renormalized cluster weights
(line 85) sum to 1. -/
theorem normalized_weights_sum (C : List SBox)
    (hS : (C.map (·.score)).sum ≠ 0) :
    (C.map (fun b => b.score / (C.map (·.score)).sum)).sum = 1 := by
  rw [sum_map_div C (·.score) _, div_self hS]

/-- Rewriting `mergedCoord` as a ratio of plain sums, when the score total is
nonzero. -/
theorem mergedCoord_eq (C : List SBox) (f : Box → ℚ)
    (hS : (C.map (·.score)).sum ≠ 0) :
    mergedCoord C f =
      (C.map (fun b => b.score * f b.box)).sum / (C.map (·.score)).sum := by
  unfold mergedCoord
  rw [normalized_weights_sum C hS, div_one]
  simp only [div_mul_eq_mul_div]
  rw [sum_map_div]

/-- A nonempty cluster of positive scores has a positive score total. -/
theorem score_sum_pos (C : List SBox) (hne : C ≠ [])
    (hpos : ∀ b ∈ C, 0 < b.score) : 0 < (C.map (·.score)).sum := by
  apply List.sum_pos
  · intro x hx
    obtain ⟨b, hb, rfl⟩ := List.mem_map.1 hx
    exact hpos b hb
  · cases C with
    | nil => exact absurd rfl hne
    | cons b r => simp

/-- Every nonempty list has a member minimizing `f`. -/
theorem exists_min_member (f : SBox → ℚ) :
    ∀ C : List SBox, C ≠ [] → ∃ a ∈ C, ∀ b ∈ C, f a ≤ f b := by
  intro C
  induction C with
  | nil => intro h; exact absurd rfl h
  | cons b rest ih =>
    intro _
    cases rest with
    | nil =>
      refine ⟨b, List.mem_cons_self _ _, ?_⟩
      intro x hx
      rcases List.mem_cons.1 hx with rfl | hx
      · exact le_refl _
      · simp at hx
    | cons c r =>
      obtain ⟨a, ha, hmin⟩ := ih (by simp)
      rcases le_total (f b) (f a) with h | h
      · refine ⟨b, List.mem_cons_self _ _, ?_⟩
        intro x hx
        rcases List.mem_cons.1 hx with rfl | hx
        · exact le_refl _
        · exact h.trans (hmin x hx)
      · refine ⟨a, List.mem_cons_of_mem _ ha, ?_⟩
        intro x hx
        rcases List.mem_cons.1 hx with rfl | hx
        · exact h
        · exact hmin x hx

/-- Every nonempty list has a member maximizing `f`. -/
theorem exists_max_member (f : SBox → ℚ) (C : List SBox) (hne : C ≠ []) :
    ∃ a ∈ C, ∀ b ∈ C, f b ≤ f a := by
  obtain ⟨a, ha, hmin⟩ := exists_min_member (fun b => -(f b)) C hne
  refine ⟨a, ha, fun b hb => ?_⟩
  have := hmin b hb
  linarith

/-- Lower bound for a score-weighted sum of values all at least `m`. -/
theorem le_sum_weighted (C : List SBox) (g : SBox → ℚ) (m : ℚ)
    (hpos : ∀ b ∈ C, 0 ≤ b.score) (hm : ∀ b ∈ C, m ≤ g b) :
    m * (C.map (·.score)).sum ≤ (C.map (fun b => b.score * g b)).sum := by
  induction C with
  | nil => simp
  | cons b r ih =>
    simp only [List.map_cons, List.sum_cons]
    have hb1 := hpos b (List.mem_cons_self _ _)
    have hb2 := hm b (List.mem_cons_self _ _)
    have ihh := ih (fun x hx => hpos x (List.mem_cons_of_mem _ hx))
      (fun x hx => hm x (List.mem_cons_of_mem _ hx))
    nlinarith [mul_le_mul_of_nonneg_left hb2 hb1]

/-- Upper bound for a score-weighted sum of values all at most `M`. -/
theorem sum_weighted_le (C : List SBox) (g : SBox → ℚ) (M : ℚ)
    (hpos : ∀ b ∈ C, 0 ≤ b.score) (hM : ∀ b ∈ C, g b ≤ M) :
    (C.map (fun b => b.score * g b)).sum ≤ M * (C.map (·.score)).sum := by
  induction C with
  | nil => simp
  | cons b r ih =>
    simp only [List.map_cons, List.sum_cons]
    have hb1 := hpos b (List.mem_cons_self _ _)
    have hb2 := hM b (List.mem_cons_self _ _)
    have ihh := ih (fun x hx => hpos x (List.mem_cons_of_mem _ hx))
      (fun x hx => hM x (List.mem_cons_of_mem _ hx))
    nlinarith [mul_le_mul_of_nonneg_left hb2 hb1]

/-- The weighted mean of one coordinate lies between the members'
minimum and maximum for that coordinate. -/
theorem mergedCoord_bounds (C : List SBox) (hne : C ≠ [])
    (hpos : ∀ b ∈ C, 0 < b.score) (f : Box → ℚ) :
    (∃ a ∈ C, f a.box ≤ mergedCoord C f) ∧ ∃ a ∈ C, mergedCoord C f ≤ f a.box := by
  have hS := score_sum_pos C hne hpos
  constructor
  · obtain ⟨a, ha, hmin⟩ := exists_min_member (fun b => f b.box) C hne
    refine ⟨a, ha, ?_⟩
    rw [mergedCoord_eq C f hS.ne', le_div_iff hS]
    exact le_sum_weighted C (fun b => f b.box) (f a.box)
      (fun b hb => (hpos b hb).le) hmin
  · obtain ⟨a, ha, hmax⟩ := exists_max_member (fun b => f b.box) C hne
    refine ⟨a, ha, ?_⟩
    rw [mergedCoord_eq C f hS.ne', div_le_iff hS]
    exact sum_weighted_le C (fun b => f b.box) (f a.box)
      (fun b hb => (hpos b hb).le) hmax

/-- C5: per cluster (nonempty, positive scores), the renormalized weights
sum to 1 and the consensus box is the weighted mean of member coordinates
with those weights; the consensus score times the member count equals the
score total (i.e. it is the unweighted mean of the scores); and each
consensus coordinate is bounded below and above by some member's
corresponding coordinate (hence lies between their minimum and maximum). -/
theorem wbf_cluster_consensus (C : List SBox) (hne : C ≠ [])
    (hpos : ∀ b ∈ C, 0 < b.score) :
    ((C.map (fun b => b.score / (C.map (·.score)).sum)).sum = 1) ∧
    ((mergedBox C).x1 = (C.map (fun b => b.score / (C.map (·.score)).sum * b.box.x1)).sum ∧
     (mergedBox C).y1 = (C.map (fun b => b.score / (C.map (·.score)).sum * b.box.y1)).sum ∧
     (mergedBox C).x2 = (C.map (fun b => b.score / (C.map (·.score)).sum * b.box.x2)).sum ∧
     (mergedBox C).y2 = (C.map (fun b => b.score / (C.map (·.score)).sum * b.box.y2)).sum) ∧
    mergedScore C * (C.length : ℚ) = (C.map (·.score)).sum ∧
    (((∃ a ∈ C, a.box.x1 ≤ (mergedBox C).x1) ∧ ∃ a ∈ C, (mergedBox C).x1 ≤ a.box.x1) ∧
     ((∃ a ∈ C, a.box.y1 ≤ (mergedBox C).y1) ∧ ∃ a ∈ C, (mergedBox C).y1 ≤ a.box.y1) ∧
     ((∃ a ∈ C, a.box.x2 ≤ (mergedBox C).x2) ∧ ∃ a ∈ C, (mergedBox C).x2 ≤ a.box.x2) ∧
     ((∃ a ∈ C, a.box.y2 ≤ (mergedBox C).y2) ∧ ∃ a ∈ C, (mergedBox C).y2 ≤ a.box.y2)) := by
  have hS := score_sum_pos C hne hpos
  have hcoord : ∀ f : Box → ℚ,
      mergedCoord C f = (C.map (fun b => b.score / (C.map (·.score)).sum * f b.box)).sum := by
    intro f
    unfold mergedCoord
    rw [normalized_weights_sum C hS.ne', div_one]
  have hlen : (C.length : ℚ) ≠ 0 := by
    have hn : C.length ≠ 0 := by
      cases C with
      | nil => exact absurd rfl hne
      | cons b r => simp
    exact_mod_cast hn
  refine ⟨normalized_weights_sum C hS.ne', ⟨hcoord Box.x1, hcoord Box.y1, hcoord Box.x2, hcoord Box.y2⟩, ?_, ?_⟩
  · unfold mergedScore
    exact div_mul_cancel₀ _ hlen
  · exact ⟨mergedCoord_bounds C hne hpos Box.x1, mergedCoord_bounds C hne hpos Box.y1,
      mergedCoord_bounds C hne hpos Box.x2, mergedCoord_bounds C hne hpos Box.y2⟩

/-- Any fuel at least the list length runs the clustering loop to
completion. -/
theorem fuseGo_fuel_irrel (iou_thr : ℚ) :
    ∀ (fuel : ℕ) (l : List SBox), l.length ≤ fuel →
      fuseGo iou_thr fuel l = fuseClusters iou_thr l := by
  intro fuel
  induction fuel using Nat.strong_induction_on with
  | _ fuel ih =>
    intro l hl
    cases l with
    | nil => cases fuel <;> rfl
    | cons s rest =>
      cases fuel with
      | zero => simp at hl
      | succ n =>
        have hscan : (scanCluster iou_thr s.box rest).2.length ≤ rest.length := by
          rw [scanCluster_eq]
          exact List.length_filter_le _ rest
        have hrest : rest.length ≤ n := by
          simpa using hl
        simp only [fuseClusters, List.length_cons, fuseGo]
        rw [ih n (Nat.lt_succ_self n) _ (hscan.trans hrest),
          ih rest.length (Nat.lt_succ_of_le hrest) _ hscan]

/-- Unfolding equation for `fuseClusters` on a nonempty list: the head
cluster is the seed with all its above-threshold candidates, and the
remaining clusters come from the rest. -/
theorem fuseClusters_cons (iou_thr : ℚ) (s : SBox) (rest : List SBox) :
    fuseClusters iou_thr (s :: rest) =
      (s :: rest.filter (fun b => iou_thr < _iou s.box b.box)) ::
        fuseClusters iou_thr (rest.filter (fun b => _iou s.box b.box ≤ iou_thr)) := by
  simp only [fuseClusters, List.length_cons, fuseGo, scanCluster_eq]
  rw [fuseGo_fuel_irrel iou_thr rest.length _ (List.length_filter_le _ rest)]
  rfl

/-- Clustering an empty list yields no clusters. -/
theorem fuseClusters_nil (iou_thr : ℚ) : fuseClusters iou_thr [] = [] := rfl

/-- Clustering a nonempty list yields at least one cluster. -/
theorem fuseClusters_ne_nil (iou_thr : ℚ) (L : List SBox) (h : L ≠ []) :
    fuseClusters iou_thr L ≠ [] := by
  cases L with
  | nil => exact absurd rfl h
  | cons s rest => simp [fuseClusters, fuseGo]

/-- C4: clustering in `weighted_boxes_fusion` is seed-anchored.  The first
box of the pooled list becomes the first cluster's seed, and that cluster
is the seed followed by exactly the later boxes whose IoU **with the
seed** exceeds `iou_thr`.  More generally every emitted cluster is of the
form `seed :: unclustered.filter (iou seed · > iou_thr)`: a box joins a
cluster iff its IoU with the cluster's seed exceeds the threshold, so a
box within threshold of a non-seed member but not of the seed itself is
never added. -/
theorem wbf_seed_anchored (iou_thr : ℚ) (L : List SBox) :
    (∀ s rest, L = s :: rest →
      ∃ tl, fuseClusters iou_thr L =
        (s :: rest.filter (fun b => iou_thr < _iou s.box b.box)) :: tl) ∧
    (∀ C ∈ fuseClusters iou_thr L, ∃ s unc, (s :: unc).Sublist L ∧
      C = s :: unc.filter (fun b => iou_thr < _iou s.box b.box)) := by
  constructor
  · rintro s rest rfl
    refine ⟨fuseGo iou_thr rest.length
      (rest.filter (fun b => _iou s.box b.box ≤ iou_thr)), ?_⟩
    simp [fuseClusters, fuseGo, scanCluster_eq]
  · intro C hC
    exact fuseGo_clusters iou_thr _ L C hC

/-- Filtering a label-partitioned `flatMap` by one label isolates that
label's block. -/
theorem flatMap_label_count (g : ℤ → List SBox)
    (hg : ∀ l' x, x ∈ g l' → x.label = l') :
    ∀ labels : List ℤ, labels.Nodup → ∀ l : ℤ,
      ((labels.flatMap g).filter (fun b => b.label = l)).length =
        if l ∈ labels then (g l).length else 0 := by
  intro labels
  induction labels with
  | nil => intro _ l; simp
  | cons l' rest ih =>
    intro hnd l
    rcases List.nodup_cons.1 hnd with ⟨hnotin, hnd'⟩
    simp only [List.flatMap_cons, List.filter_append, List.length_append]
    by_cases h : l = l'
    · subst h
      have h1 : (g l).filter (fun b => b.label = l) = g l :=
        List.filter_eq_self.2 (fun x hx => by simp [hg l x hx])
      rw [h1, ih hnd' l, if_neg hnotin, if_pos (List.mem_cons_self _ _)]
      omega
    · have h1 : (g l').filter (fun b => b.label = l) = [] := by
        rw [List.filter_eq_nil_iff]
        intro x hx
        simp only [hg l' x hx, decide_eq_true_eq]
        exact fun hh => h hh.symm
      rw [h1, ih hnd' l]
      simp [List.mem_cons, h]

/-- Membership of a label in the deduplicated sorted label list is the
same as that label having a nonempty pooled slice. -/
theorem label_mem_iff (pooled : List SBox) (l : ℤ) :
    (l ∈ ((pooled.map (·.label)).dedup).insertionSort (· ≤ ·)) ↔
      0 < (pooled.filter (fun b => b.label = l)).length := by
  rw [(List.perm_insertionSort _ _).mem_iff, List.mem_dedup, List.mem_map,
    List.length_pos]
  constructor
  · rintro ⟨b, hb, rfl⟩
    exact List.ne_nil_of_mem (List.mem_filter.2 ⟨hb, by simp⟩)
  · intro hne
    obtain ⟨b, hb⟩ := List.exists_mem_of_ne_nil _ hne
    rcases List.mem_filter.1 hb with ⟨hbp, hbl⟩
    exact ⟨b, hbp, by simpa using hbl⟩

/-- C3: for every class label, the number of consensus boxes emitted by
`weighted_boxes_fusion` with that label is at most the number of pooled
input boxes with that label (those above the skip threshold), is at least
1 whenever that pooled count is at least 1, and is 0 when it is 0. -/
theorem wbf_label_count_bounds (boxes_list : List (List SBox))
    (iou_thr skip_box_thr : ℚ) (l : ℤ) :
    (((weighted_boxes_fusion boxes_list iou_thr skip_box_thr).filter
        (fun b => b.label = l)).length ≤
      ((pool boxes_list skip_box_thr).filter (fun b => b.label = l)).length) ∧
    (1 ≤ ((pool boxes_list skip_box_thr).filter (fun b => b.label = l)).length →
      1 ≤ ((weighted_boxes_fusion boxes_list iou_thr skip_box_thr).filter
        (fun b => b.label = l)).length) ∧
    (((pool boxes_list skip_box_thr).filter (fun b => b.label = l)).length = 0 →
      ((weighted_boxes_fusion boxes_list iou_thr skip_box_thr).filter
        (fun b => b.label = l)).length = 0) := by
  have hcount : ((weighted_boxes_fusion boxes_list iou_thr skip_box_thr).filter
      (fun b => b.label = l)).length =
      if l ∈ (((pool boxes_list skip_box_thr).map (·.label)).dedup).insertionSort (· ≤ ·) then
        (fuseClusters iou_thr
          ((pool boxes_list skip_box_thr).filter (fun b => b.label = l))).length
      else 0 := by
    unfold weighted_boxes_fusion
    rw [flatMap_label_count _ (fun l' x hx => by
        obtain ⟨C, _, rfl⟩ := List.mem_map.1 hx
        rfl)
      _ ((List.perm_insertionSort _ _).nodup_iff.2 (List.nodup_dedup _)) l]
    by_cases hmem :
        l ∈ (((pool boxes_list skip_box_thr).map (·.label)).dedup).insertionSort (· ≤ ·)
    · rw [if_pos hmem, if_pos hmem, List.length_map]
    · rw [if_neg hmem, if_neg hmem]
  refine ⟨?_, ?_, ?_⟩
  · rw [hcount]
    by_cases hmem :
        l ∈ (((pool boxes_list skip_box_thr).map (·.label)).dedup).insertionSort (· ≤ ·)
    · rw [if_pos hmem]
      exact fuseGo_length_le iou_thr _ _
    · rw [if_neg hmem]
      exact Nat.zero_le _
  · intro hn
    rw [hcount, if_pos ((label_mem_iff _ l).2 hn)]
    have hne : (pool boxes_list skip_box_thr).filter (fun b => b.label = l) ≠ [] := by
      intro hnil
      rw [hnil] at hn
      simp at hn
    have := fuseClusters_ne_nil iou_thr _ hne
    exact List.length_pos.2 this
  · intro hn
    rw [hcount, if_neg]
    rw [label_mem_iff]
    omega

/-- A list whose members all have score 1 has score total equal to its
length. -/
theorem sum_map_score_one (C : List SBox) (hsc : ∀ b ∈ C, b.score = 1) :
    (C.map (·.score)).sum = (C.length : ℚ) := by
  induction C with
  | nil => simp
  | cons b r ih =>
    simp only [List.map_cons, List.sum_cons, List.length_cons]
    rw [hsc b (List.mem_cons_self _ _), ih (fun x hx => hsc x (List.mem_cons_of_mem _ hx))]
    push_cast
    ring

/-- C10: when every input box carries score 1 (as `convert_dataset` always
passes, line 247) and the skip threshold is 0 (the default used by the
call at line 259), every consensus box emitted by fusion has score exactly
1, and equals the plain unweighted arithmetic mean of its cluster members'
coordinates; the cluster weight total equals the member count, which is
nonzero, so the normalization at line 85 never divides by zero. -/
theorem wbf_unit_scores (boxes_list : List (List SBox)) (iou_thr : ℚ)
    (hs : ∀ g ∈ boxes_list, ∀ b ∈ g, b.score = 1) :
    ∀ out ∈ weighted_boxes_fusion boxes_list iou_thr 0,
      out.score = 1 ∧
      ∃ C : List SBox, C ≠ [] ∧ (∀ b ∈ C, b ∈ pool boxes_list 0) ∧
        (C.map (·.score)).sum = (C.length : ℚ) ∧ (C.length : ℚ) ≠ 0 ∧
        out.box.x1 = (C.map (fun b => b.box.x1)).sum / (C.length : ℚ) ∧
        out.box.y1 = (C.map (fun b => b.box.y1)).sum / (C.length : ℚ) ∧
        out.box.x2 = (C.map (fun b => b.box.x2)).sum / (C.length : ℚ) ∧
        out.box.y2 = (C.map (fun b => b.box.y2)).sum / (C.length : ℚ) := by
  intro out hout
  unfold weighted_boxes_fusion at hout
  rw [List.mem_flatMap] at hout
  obtain ⟨l, _, hout⟩ := hout
  obtain ⟨C, hC, rfl⟩ := List.mem_map.1 hout
  obtain ⟨s, unc, hsub, hCeq⟩ := fuseGo_clusters iou_thr _ _ C hC
  have hCne : C ≠ [] := by rw [hCeq]; simp
  have hmempool : ∀ b ∈ C, b ∈ pool boxes_list 0 := by
    intro b hb
    rw [hCeq] at hb
    have hb' : b ∈ s :: unc := by
      rcases List.mem_cons.1 hb with rfl | hb
      · exact List.mem_cons_self _ _
      · exact List.mem_cons_of_mem _ (List.mem_of_mem_filter hb)
    exact List.mem_of_mem_filter (hsub.mem hb')
  have hscore1 : ∀ b ∈ C, b.score = 1 := by
    intro b hb
    obtain ⟨g, hg, hbg⟩ := List.mem_flatten.1 (List.mem_of_mem_filter (hmempool b hb))
    exact hs g hg b hbg
  have hsum := sum_map_score_one C hscore1
  have hlen : (C.length : ℚ) ≠ 0 := by
    have hn : C.length ≠ 0 := by
      cases C with
      | nil => exact absurd rfl hCne
      | cons b r => simp
    exact_mod_cast hn
  have hS : (C.map (·.score)).sum ≠ 0 := by rw [hsum]; exact hlen
  have hco : ∀ f : Box → ℚ,
      mergedCoord C f = (C.map (fun b => f b.box)).sum / (C.length : ℚ) := by
    intro f
    rw [mergedCoord_eq C f hS, hsum]
    congr 1
    exact congrArg List.sum
      (List.map_congr_left (fun b hb => by rw [hscore1 b hb, one_mul]))
  refine ⟨?_, C, hCne, hmempool, hsum, hlen, hco Box.x1, hco Box.y1, hco Box.x2, hco Box.y2⟩
  show mergedScore C = 1
  unfold mergedScore
  rw [hsum, div_self hlen]

/-- Example box: unit square at the origin. -/
def exA : SBox := ⟨⟨0, 0, 1, 1⟩, 1, 0⟩

/-- Example box: unit square shifted right by 0.3 (IoU 7/13 with `exA`). -/
def exB : SBox := ⟨⟨3/10, 0, 13/10, 1⟩, 1, 0⟩

/-- Example box: unit square shifted right by 0.6 (IoU 7/13 with `exB` but
only 1/4 with `exA`). -/
def exC : SBox := ⟨⟨6/10, 0, 16/10, 1⟩, 1, 0⟩

/-- Witness for C4 on the chain `exA`-`exB`-`exC`: the first cluster is
seeded at `exA` and contains exactly the later boxes within threshold of
`exA`; the cluster `[exC]` (whose sole member overlaps `exB` beyond the
threshold but not the seed `exA`) is seed-anchored as well. -/
theorem wbf_seed_anchored_witness :
    (∃ tl, fuseClusters (1/2) [exA, exB, exC] =
      (exA :: ([exB, exC] : List SBox).filter
        (fun b => (1:ℚ)/2 < _iou exA.box b.box)) :: tl) ∧
    (∃ s unc, (s :: unc).Sublist [exA, exB, exC] ∧
      [exC] = s :: unc.filter (fun b => (1:ℚ)/2 < _iou s.box b.box)) :=
  ⟨(wbf_seed_anchored (1/2) [exA, exB, exC]).1 exA [exB, exC] rfl,
   (wbf_seed_anchored (1/2) [exA, exB, exC]).2 [exC]
     (by norm_num [exA, exB, exC, fuseClusters_cons, fuseClusters_nil,
       List.filter_cons, _iou, max_def, min_def])⟩

/-- Example cluster: the two overlapping annotator boxes of the spec's
Example 1. -/
def exC5 : List SBox :=
  [⟨⟨1/10, 1/10, 3/10, 3/10⟩, 1, 3⟩, ⟨⟨12/100, 11/100, 31/100, 29/100⟩, 1, 3⟩]

/-- Witness for C5 on the two-box cluster `exC5`. -/
theorem wbf_cluster_consensus_witness :
    ((exC5.map (fun b => b.score / (exC5.map (·.score)).sum)).sum = 1) ∧
    ((mergedBox exC5).x1 =
        (exC5.map (fun b => b.score / (exC5.map (·.score)).sum * b.box.x1)).sum ∧
     (mergedBox exC5).y1 =
        (exC5.map (fun b => b.score / (exC5.map (·.score)).sum * b.box.y1)).sum ∧
     (mergedBox exC5).x2 =
        (exC5.map (fun b => b.score / (exC5.map (·.score)).sum * b.box.x2)).sum ∧
     (mergedBox exC5).y2 =
        (exC5.map (fun b => b.score / (exC5.map (·.score)).sum * b.box.y2)).sum) ∧
    mergedScore exC5 * (exC5.length : ℚ) = (exC5.map (·.score)).sum ∧
    (((∃ a ∈ exC5, a.box.x1 ≤ (mergedBox exC5).x1) ∧ ∃ a ∈ exC5, (mergedBox exC5).x1 ≤ a.box.x1) ∧
     ((∃ a ∈ exC5, a.box.y1 ≤ (mergedBox exC5).y1) ∧ ∃ a ∈ exC5, (mergedBox exC5).y1 ≤ a.box.y1) ∧
     ((∃ a ∈ exC5, a.box.x2 ≤ (mergedBox exC5).x2) ∧ ∃ a ∈ exC5, (mergedBox exC5).x2 ≤ a.box.x2) ∧
     ((∃ a ∈ exC5, a.box.y2 ≤ (mergedBox exC5).y2) ∧ ∃ a ∈ exC5, (mergedBox exC5).y2 ≤ a.box.y2)) :=
  wbf_cluster_consensus exC5 (by simp only [exC5]; exact List.cons_ne_nil _ _)
    (by intro b hb; simp only [exC5] at hb; fin_cases hb <;> norm_num)

/-- Example fusion input: two annotators, one box each, same label. -/
def exBL : List (List SBox) :=
  [[⟨⟨0, 0, 1, 1⟩, 1, 3⟩], [⟨⟨3/10, 0, 13/10, 1⟩, 1, 3⟩]]

/-- Witness for C3 on `exBL`: label 3 has two pooled boxes, so fusion
emits at least one with label 3; label 5 has none, so fusion emits none. -/
theorem wbf_label_count_bounds_witness :
    (1 ≤ ((weighted_boxes_fusion exBL (1/2) 0).filter (fun b => b.label = 3)).length) ∧
    (((weighted_boxes_fusion exBL (1/2) 0).filter (fun b => b.label = 5)).length = 0) :=
  ⟨(wbf_label_count_bounds exBL (1/2) 0 3).2.1
      (by norm_num [pool, exBL, List.filter_cons]),
   (wbf_label_count_bounds exBL (1/2) 0 5).2.2
      (by norm_num [pool, exBL, List.filter_cons])⟩

/-- Example single radiologist box with unit score. -/
def exB1 : SBox := ⟨⟨0, 0, 1, 1⟩, 1, 3⟩

/-- Example fusion input with one annotator holding one unit-score box. -/
def exBL1 : List (List SBox) := [[exB1]]

/-- Witness for C10 on `exBL1`. -/
theorem wbf_unit_scores_witness :
    (⟨mergedBox [exB1], mergedScore [exB1], 3⟩ : SBox).score = 1 ∧
    ∃ C : List SBox, C ≠ [] ∧ (∀ b ∈ C, b ∈ pool exBL1 0) ∧
      (C.map (·.score)).sum = (C.length : ℚ) ∧ (C.length : ℚ) ≠ 0 ∧
      (⟨mergedBox [exB1], mergedScore [exB1], 3⟩ : SBox).box.x1 =
        (C.map (fun b => b.box.x1)).sum / (C.length : ℚ) ∧
      (⟨mergedBox [exB1], mergedScore [exB1], 3⟩ : SBox).box.y1 =
        (C.map (fun b => b.box.y1)).sum / (C.length : ℚ) ∧
      (⟨mergedBox [exB1], mergedScore [exB1], 3⟩ : SBox).box.x2 =
        (C.map (fun b => b.box.x2)).sum / (C.length : ℚ) ∧
      (⟨mergedBox [exB1], mergedScore [exB1], 3⟩ : SBox).box.y2 =
        (C.map (fun b => b.box.y2)).sum / (C.length : ℚ) :=
  wbf_unit_scores exBL1 (1/2)
    (by
      intro g hg
      simp only [exBL1] at hg
      fin_cases hg
      intro b hb
      fin_cases hb
      norm_num [exB1])
    ⟨mergedBox [exB1], mergedScore [exB1], 3⟩
    (by norm_num [weighted_boxes_fusion, pool, exBL1, exB1, List.insertionSort,
      List.orderedInsert, fuseClusters_cons, fuseClusters_nil, List.filter_cons])

/-- Python `int()` applied to a float: truncation toward zero, modelled on
rationals via T-division of numerator by denominator. -/
def pyInt (q : ℚ) : ℤ := q.num.tdiv q.den

/-- On nonnegative arguments, Python `int()` truncation is the floor. -/
theorem pyInt_eq_floor (q : ℚ) (h : 0 ≤ q) : pyInt q = ⌊q⌋ := by
  unfold pyInt
  rw [Int.tdiv_eq_ediv (Rat.num_nonneg.2 h) (Int.ofNat_nonneg _)]
  exact Rat.floor_def.symm

/-- Outcome of the split stage of `convert_dataset` (lines 289-309):
the finding images' val/train slices, the selected background images, and
their val/train slices.  `train_images` / `val_images` are the unions
`findingTrain ∪ nfTrain` / `findingVal ∪ nfVal`. -/
structure SplitResult (α : Type) where
  findingVal : List α
  findingTrain : List α
  selectedNf : List α
  nfVal : List α
  nfTrain : List α

/-- Embedding of the split arithmetic of `convert_dataset`
(lines 292-309), applied to the already-shuffled finding-image list and
the already-shuffled background pool: `val_count = int(n_finding *
val_split)` finding images go to val and the rest to train; `min(
int(n_finding * include_no_finding_ratio), n_background)` background
images are selected and split with the same `val_split` truncation rule.
(Counts are taken with `Int.toNat`; under the documented configuration
domain `0 ≤ val_split ≤ 1`, `0 ≤ ratio` they are nonnegative, which the
theorems assume.) -/
def splitAssign (finding nf : List α) (val_split ratio : ℚ) : SplitResult α :=
  let val_count := (pyInt ((finding.length : ℚ) * val_split)).toNat
  let n0 := (pyInt ((finding.length : ℚ) * ratio)).toNat
  let sel := nf.take (min n0 nf.length)
  let nfv_count := (pyInt ((sel.length : ℚ) * val_split)).toNat
  ⟨finding.take val_count, finding.drop val_count, sel,
    sel.take nfv_count, sel.drop nfv_count⟩

/-- The set `train_images` after both updates (lines 294 and 308). -/
def trainList (r : SplitResult α) : List α := r.findingTrain ++ r.nfTrain

/-- The set `val_images` after both updates (lines 293 and 309). -/
def valList (r : SplitResult α) : List α := r.findingVal ++ r.nfVal

/-- C1: for every run of the split (any shuffled finding list without
duplicates, any shuffled background pool without duplicates and disjoint
from the finding list — which the upstream dict/set construction
guarantees), train and val are disjoint, their union is exactly the
finding images plus the selected background images, and every such image
lands in exactly one of the two sets. -/
theorem split_partition (finding nf : List α) (val_split ratio : ℚ)
    (hndf : finding.Nodup) (hndn : nf.Nodup)
    (hdisj : ∀ x ∈ nf, x ∉ finding) :
    (∀ x, ¬(x ∈ trainList (splitAssign finding nf val_split ratio) ∧
      x ∈ valList (splitAssign finding nf val_split ratio))) ∧
    (∀ x, (x ∈ trainList (splitAssign finding nf val_split ratio) ∨
      x ∈ valList (splitAssign finding nf val_split ratio)) ↔
      (x ∈ finding ∨ x ∈ (splitAssign finding nf val_split ratio).selectedNf)) ∧
    (∀ x, x ∈ finding ∨ x ∈ (splitAssign finding nf val_split ratio).selectedNf →
      (x ∈ trainList (splitAssign finding nf val_split ratio) ↔
       ¬ x ∈ valList (splitAssign finding nf val_split ratio))) := by
  simp only [splitAssign, trainList, valList]
  set vc := (pyInt ((finding.length : ℚ) * val_split)).toNat with hvc
  set n0 := (pyInt ((finding.length : ℚ) * ratio)).toNat with hn0
  set sel := nf.take (min n0 nf.length) with hsel
  set nc := (pyInt ((sel.length : ℚ) * val_split)).toNat with hnc
  have hself : ∀ x, x ∈ sel → x ∈ nf := fun x hx => (List.take_sublist _ _).mem hx
  have hsnd : sel.Nodup := (List.take_sublist _ _).nodup hndn
  have hfin : ∀ x, x ∈ finding ↔ x ∈ finding.take vc ∨ x ∈ finding.drop vc := by
    intro x
    conv_lhs => rw [← List.take_append_drop vc finding]
    exact List.mem_append
  have hselm : ∀ x, x ∈ sel ↔ x ∈ sel.take nc ∨ x ∈ sel.drop nc := by
    intro x
    conv_lhs => rw [← List.take_append_drop nc sel]
    exact List.mem_append
  have dfin : List.Disjoint (finding.take vc) (finding.drop vc) :=
    List.disjoint_take_drop hndf (le_refl vc)
  have dsel : List.Disjoint (sel.take nc) (sel.drop nc) :=
    List.disjoint_take_drop hsnd (le_refl nc)
  have hcross : ∀ x, x ∈ sel → x ∈ finding → False := fun x hx hf =>
    hdisj x (hself x hx) hf
  refine ⟨?_, ?_, ?_⟩
  · intro x ⟨ht, hv⟩
    rcases List.mem_append.1 ht with ht | ht <;> rcases List.mem_append.1 hv with hv | hv
    · exact dfin hv ht
    · exact hcross x ((hselm x).2 (Or.inl hv)) ((hfin x).2 (Or.inr ht))
    · exact hcross x ((hselm x).2 (Or.inr ht)) ((hfin x).2 (Or.inl hv))
    · exact dsel hv ht
  · intro x
    rw [List.mem_append, List.mem_append, hfin x, hselm x]
    tauto
  · intro x hx
    constructor
    · intro ht hv
      rcases List.mem_append.1 ht with ht | ht <;> rcases List.mem_append.1 hv with hv | hv
      · exact dfin hv ht
      · exact hcross x ((hselm x).2 (Or.inl hv)) ((hfin x).2 (Or.inr ht))
      · exact hcross x ((hselm x).2 (Or.inr ht)) ((hfin x).2 (Or.inl hv))
      · exact dsel hv ht
    · intro hnv
      rcases hx with hx | hx
      · rcases (hfin x).1 hx with hx' | hx'
        · exact absurd (List.mem_append.2 (Or.inl hx')) hnv
        · exact List.mem_append.2 (Or.inl hx')
      · rcases (hselm x).1 hx with hx' | hx'
        · exact absurd (List.mem_append.2 (Or.inr hx')) hnv
        · exact List.mem_append.2 (Or.inr hx')

/-- Taking `int(len * q)` elements of a list, for `0 ≤ q ≤ 1`, takes
exactly `⌊len * q⌋` elements, and the complement keeps the rest. -/
theorem take_floor_length (l : List α) (q : ℚ) (hq0 : 0 ≤ q) (hq1 : q ≤ 1) :
    ((l.take ((pyInt ((l.length : ℚ) * q)).toNat)).length : ℤ) =
      ⌊(l.length : ℚ) * q⌋ ∧
    (l.drop ((pyInt ((l.length : ℚ) * q)).toNat)).length =
      l.length - (l.take ((pyInt ((l.length : ℚ) * q)).toNat)).length := by
  have hprod : 0 ≤ (l.length : ℚ) * q := mul_nonneg (by positivity) hq0
  have hfl : (0 : ℤ) ≤ ⌊(l.length : ℚ) * q⌋ := Int.floor_nonneg.2 hprod
  have hle : ⌊(l.length : ℚ) * q⌋ ≤ (l.length : ℤ) := by
    have hq : (l.length : ℚ) * q ≤ (l.length : ℚ) := by
      nlinarith [Nat.cast_nonneg (α := ℚ) l.length]
    calc ⌊(l.length : ℚ) * q⌋ ≤ ⌊(l.length : ℚ)⌋ := Int.floor_le_floor hq
      _ = (l.length : ℤ) := Int.floor_natCast _
  have htn : (⌊(l.length : ℚ) * q⌋).toNat ≤ l.length := Int.toNat_le.2 hle
  rw [pyInt_eq_floor _ hprod, List.length_take, List.length_drop,
    Nat.min_eq_left htn, Int.toNat_of_nonneg hfl]
  exact ⟨rfl, rfl⟩

/-- C8: val receives exactly `⌊n_finding * val_split⌋` shuffled finding
images and train the remainder; the selected background count is
`min(⌊n_finding * include_no_finding_ratio⌋, n_background)`; and the
background pool is split by the same `val_split` truncation rule. -/
theorem split_sizes (finding nf : List α) (val_split ratio : ℚ)
    (h0 : 0 ≤ val_split) (h1 : val_split ≤ 1) (hr : 0 ≤ ratio) :
    (((splitAssign finding nf val_split ratio).findingVal.length : ℤ) =
      ⌊(finding.length : ℚ) * val_split⌋) ∧
    ((splitAssign finding nf val_split ratio).findingTrain.length =
      finding.length - (splitAssign finding nf val_split ratio).findingVal.length) ∧
    ((splitAssign finding nf val_split ratio).selectedNf.length =
      min (⌊(finding.length : ℚ) * ratio⌋).toNat nf.length) ∧
    (((splitAssign finding nf val_split ratio).nfVal.length : ℤ) =
      ⌊((splitAssign finding nf val_split ratio).selectedNf.length : ℚ) * val_split⌋) ∧
    ((splitAssign finding nf val_split ratio).nfTrain.length =
      (splitAssign finding nf val_split ratio).selectedNf.length -
        (splitAssign finding nf val_split ratio).nfVal.length) := by
  obtain ⟨hf1, hf2⟩ := take_floor_length finding val_split h0 h1
  have hsel : (splitAssign finding nf val_split ratio).selectedNf =
      nf.take (min ((pyInt ((finding.length : ℚ) * ratio)).toNat) nf.length) := rfl
  have hsellen : (splitAssign finding nf val_split ratio).selectedNf.length =
      min (⌊(finding.length : ℚ) * ratio⌋).toNat nf.length := by
    rw [hsel, List.length_take,
      pyInt_eq_floor _ (mul_nonneg (by positivity) hr)]
    omega
  obtain ⟨hn1, hn2⟩ :=
    take_floor_length (splitAssign finding nf val_split ratio).selectedNf val_split h0 h1
  exact ⟨hf1, hf2, hsellen, hn1, hn2⟩

/-- Witness for C1 at a concrete split: 4 finding images, 2 background
images, `val_split = 1/2`, `include_no_finding_ratio = 1/2`. -/
theorem split_partition_witness :
    (∀ x, ¬(x ∈ trainList (splitAssign [0, 1, 2, 3] [10, 11] (1/2) (1/2)) ∧
      x ∈ valList (splitAssign [0, 1, 2, 3] [10, 11] (1/2) (1/2)))) ∧
    (∀ x, (x ∈ trainList (splitAssign [0, 1, 2, 3] [10, 11] (1/2) (1/2)) ∨
      x ∈ valList (splitAssign [0, 1, 2, 3] [10, 11] (1/2) (1/2))) ↔
      (x ∈ [0, 1, 2, 3] ∨ x ∈ (splitAssign [0, 1, 2, 3] [10, 11] (1/2) (1/2)).selectedNf)) ∧
    (∀ x, x ∈ [0, 1, 2, 3] ∨ x ∈ (splitAssign [0, 1, 2, 3] [10, 11] (1/2) (1/2)).selectedNf →
      (x ∈ trainList (splitAssign [0, 1, 2, 3] [10, 11] (1/2) (1/2)) ↔
       ¬ x ∈ valList (splitAssign [0, 1, 2, 3] [10, 11] (1/2) (1/2)))) :=
  split_partition [0, 1, 2, 3] [10, 11] (1/2) (1/2)
    (by decide) (by decide) (by decide)

/-- Witness for C8 at the same concrete split. -/
theorem split_sizes_witness :
    (((splitAssign [0, 1, 2, 3] [10, 11] (1/2) (1/2)).findingVal.length : ℤ) =
      ⌊(([0, 1, 2, 3] : List ℕ).length : ℚ) * (1/2)⌋) ∧
    ((splitAssign [0, 1, 2, 3] [10, 11] (1/2) (1/2)).findingTrain.length =
      ([0, 1, 2, 3] : List ℕ).length -
        (splitAssign [0, 1, 2, 3] [10, 11] (1/2) (1/2)).findingVal.length) ∧
    ((splitAssign [0, 1, 2, 3] [10, 11] (1/2) (1/2)).selectedNf.length =
      min (⌊(([0, 1, 2, 3] : List ℕ).length : ℚ) * (1/2)⌋).toNat
        ([10, 11] : List ℕ).length) ∧
    (((splitAssign [0, 1, 2, 3] [10, 11] (1/2) (1/2)).nfVal.length : ℤ) =
      ⌊((splitAssign [0, 1, 2, 3] [10, 11] (1/2) (1/2)).selectedNf.length : ℚ) * (1/2)⌋) ∧
    ((splitAssign [0, 1, 2, 3] [10, 11] (1/2) (1/2)).nfTrain.length =
      (splitAssign [0, 1, 2, 3] [10, 11] (1/2) (1/2)).selectedNf.length -
        (splitAssign [0, 1, 2, 3] [10, 11] (1/2) (1/2)).nfVal.length) :=
  split_sizes [0, 1, 2, 3] [10, 11] (1/2) (1/2)
    (by norm_num) (by norm_num) (by norm_num)

/-- Truncation of zero is zero. -/
theorem pyInt_zero : pyInt 0 = 0 := by
  rw [pyInt_eq_floor 0 le_rfl]
  exact Int.floor_zero

/-- Truncation of one is one. -/
theorem pyInt_one : pyInt 1 = 1 := by
  rw [pyInt_eq_floor 1 zero_le_one]
  exact Int.floor_one

/-- Modelled from the spec: the global pseudo-random generator state
seeded by `random.seed(seed)` at line 159 and consumed by the two
`random.shuffle` calls.  The spec (§4.2, §5, §9) fixes only that the
generator is deterministic given the seed; the concrete CPython generator
is outside the repository, so a linear congruential step stands in for
it. -/
def lcgNext (s : ℕ) : ℕ := (1664525 * s + 1013904223) % 2 ^ 32

/-- Modelled from the spec: one `random.shuffle` call (lines 290 and 299).
The spec fixes only that a shuffle applies a deterministic, generator-
state-dependent positional permutation and advances the generator state;
it is modelled as a rotation by a generator-derived offset. -/
def shuffleStep (s : ℕ) (l : List α) : List α × ℕ :=
  (l.rotate (lcgNext s % l.length), lcgNext s)

/-- The split stage as run by `convert_dataset` (lines 159, 289-309): seed
once, shuffle the finding-image list, then shuffle the background pool
with the advanced generator state, then split.  `nfEnum` is the
enumeration order of the Python set `pure_no_finding` materialized by
`list(pure_no_finding)` at line 298 — an input that is NOT determined by
the CSV contents or the seed, because CPython string hashing (which fixes
set iteration order) is randomized per process. -/
def runSplit (seed : ℕ) (finding nfEnum : List α) (val_split ratio : ℚ) :
    SplitResult α :=
  let p1 := shuffleStep seed finding
  let p2 := shuffleStep p1.2 nfEnum
  splitAssign p1.1 p2.1 val_split ratio

/-- C2 counterexample: two runs on the same CSV-derived data and the same
seed 42 — one finding image `0`, background set `{1, 2}` — but with the
two possible set-enumeration orders `[1, 2]` and `[2, 1]` (permutations of
the same set), produce different train assignments: the selected
background image is `1` in one run and `2` in the other.  Split assignment
is therefore not a function of (CSV, images, seed) alone. -/
theorem runSplit_depends_on_set_order :
    ([1, 2] : List ℕ).Perm [2, 1] ∧
    trainList (runSplit 42 [0] [1, 2] 0 1) = [0, 1] ∧
    trainList (runSplit 42 [0] [2, 1] 0 1) = [0, 2] ∧
    trainList (runSplit 42 [0] [1, 2] 0 1) ≠ trainList (runSplit 42 [0] [2, 1] 0 1) := by
  have h1 : trainList (runSplit 42 [0] [1, 2] 0 1) = [0, 1] := by
    norm_num [runSplit, shuffleStep, splitAssign, trainList, lcgNext,
      pyInt_zero, pyInt_one, List.rotate]
  have h2 : trainList (runSplit 42 [0] [2, 1] 0 1) = [0, 2] := by
    norm_num [runSplit, shuffleStep, splitAssign, trainList, lcgNext,
      pyInt_zero, pyInt_one, List.rotate]
  refine ⟨by decide, h1, h2, ?_⟩
  rw [h1, h2]
  decide

/-- One YOLO label line `class x_c y_c w h` (line 277), kept structured;
the class id field is what `int(line.split()[0])` recovers at line 380. -/
structure YoloLine where
  cls : ℤ
  xc : ℚ
  yc : ℚ
  w : ℚ
  h : ℚ
deriving DecidableEq, Repr

/-- Clamp to `[0, 1]`: `max(0, min(1, v))` (lines 272-275). -/
def clamp01 (q : ℚ) : ℚ := max 0 (min 1 q)

/-- Conversion of one consensus box to a YOLO label line (lines 265-277):
center form, then clamping of the four derived values. -/
def toYoloLine (b : SBox) : YoloLine :=
  ⟨b.label, clamp01 ((b.box.x1 + b.box.x2) / 2),
    clamp01 ((b.box.y1 + b.box.y2) / 2),
    clamp01 (b.box.x2 - b.box.x1), clamp01 (b.box.y2 - b.box.y1)⟩

/-- The per-class statistics computed at lines 377-381: iterate the
values of the in-memory `yolo_labels` dict and count the lines of each
class. -/
def classCounts (yolo : List (α × List YoloLine)) (i : ℤ) : ℕ :=
  ((yolo.map Prod.snd).flatten.filter (fun ln => ln.cls = i)).length

/-- The label artifacts materialized for one split set (lines 327-351):
an image whose file is missing from `available` is skipped; otherwise its
`yolo_labels` lines are written, or an empty label file when the image has
no entry. -/
def writtenLabels [DecidableEq α] (available splitSet : List α)
    (yolo : List (α × List YoloLine)) : List (α × List YoloLine) :=
  (splitSet.filter (fun i => i ∈ available)).map
    (fun i => (i, ((yolo.find? (fun p => p.1 = i)).map Prod.snd).getD []))

/-- The ordered class taxonomy `CLASS_NAMES` (lines 114-129). -/
def CLASS_NAMES : List String :=
  ["Aortic enlargement", "Atelectasis", "Calcification", "Cardiomegaly",
   "Consolidation", "ILD", "Infiltration", "Lung Opacity", "Nodule/Mass",
   "Other lesion", "Pleural effusion", "Pleural thickening", "Pneumothorax",
   "Pulmonary fibrosis"]

/-- The class count `NUM_CLASSES` (line 130). -/
def NUM_CLASSES : ℕ := CLASS_NAMES.length

/-- The fields serialized into `dataset.yaml` (lines 359-368): dataset
root path, split image paths, class count and ordered class names.  The
file contains nothing else — in particular no per-class box counts. -/
structure DatasetManifest where
  path : String
  train : String
  val : String
  nc : ℕ
  names : List String
deriving DecidableEq, Repr

/-- The manifest written by `convert_dataset` (lines 357-371). -/
def datasetManifest (outPath : String) : DatasetManifest :=
  ⟨outPath, "images/train", "images/val", NUM_CLASSES, CLASS_NAMES⟩

/-- C9 counterexample: take one finding image `0` carrying a single
class-3 label line, whose image file is missing from storage
(`available = []`) while it sits in the train split.  The statistics the
program reports (lines 377-381) count that box — they are read from the
in-memory `yolo_labels` — yet scanning the just-written label artifacts
finds no class-3 box at all, so the reported counts are NOT recomputed
from the materialized labels.  (The written `dataset.yaml` itself carries
no per-class counts: `DatasetManifest` has only path, split paths, `nc`
and `names`.) -/
theorem classCounts_not_from_artifacts :
    classCounts ([(0, [⟨3, 1/2, 1/2, 1/4, 1/4⟩])] : List (ℕ × List YoloLine)) 3 = 1 ∧
    classCounts
      (writtenLabels ([] : List ℕ) [0] [(0, [⟨3, 1/2, 1/2, 1/4, 1/4⟩])] ++
        writtenLabels ([] : List ℕ) [] [(0, [⟨3, 1/2, 1/2, 1/4, 1/4⟩])]) 3 = 0 ∧
    (1 : ℕ) ≠ 0 := by
  refine ⟨?_, ?_, one_ne_zero⟩
  · decide
  · decide

/-- Looking up each key of an association list with distinct keys returns
the association list itself. -/
theorem map_lookup_self [DecidableEq α] (yolo : List (α × List YoloLine))
    (hnd : (yolo.map Prod.fst).Nodup) :
    (yolo.map Prod.fst).map
      (fun k => (k, ((yolo.find? (fun p => p.1 = k)).map Prod.snd).getD [])) = yolo := by
  induction yolo with
  | nil => rfl
  | cons e rest ih =>
    simp only [List.map_cons] at hnd ⊢
    rcases List.nodup_cons.1 hnd with ⟨hk, hnd'⟩
    congr 1
    · rw [List.find?_cons_of_pos _ (by simp)]
      simp
    · have hcong : (List.map Prod.fst rest).map
          (fun k => (k, ((List.find? (fun p => p.1 = k) (e :: rest)).map Prod.snd).getD [])) =
          (List.map Prod.fst rest).map
          (fun k => (k, ((List.find? (fun p => p.1 = k) rest).map Prod.snd).getD [])) := by
        apply List.map_congr_left
        intro k' hk'
        have hne : ¬ e.1 = k' := fun h => hk (h ▸ hk')
        rw [List.find?_cons_of_neg _ (by simp [hne])]
      rw [hcong, ih hnd']

/-- The counts in `classCounts` only depend on the multiset of label-file contents. -/
theorem classCounts_perm (L1 L2 : List (α × List YoloLine))
    (h : L1.Perm L2) (i : ℤ) :
    classCounts L1 i = classCounts L2 i := by
  unfold classCounts
  exact (((h.map Prod.snd).flatten).filter _).length_eq

/-- Class counts over concatenated label artifacts add up. -/
theorem classCounts_append (L1 L2 : List (α × List YoloLine)) (i : ℤ) :
    classCounts (L1 ++ L2) i = classCounts L1 i + classCounts L2 i := by
  unfold classCounts
  rw [List.map_append, List.flatten_append, List.filter_append, List.length_append]

/-- Label artifacts that are all empty files contribute no box to any
class count. -/
theorem classCounts_eq_zero_of_empty (L : List (α × List YoloLine))
    (h : ∀ e ∈ L, e.2 = ([] : List YoloLine)) (i : ℤ) :
    classCounts L i = 0 := by
  induction L with
  | nil => rfl
  | cons e rest ih =>
    rw [show e :: rest = [e] ++ rest from rfl, classCounts_append,
      ih (fun x hx => h x (List.mem_cons_of_mem _ hx))]
    have he : e.2 = [] := h e (List.mem_cons_self _ _)
    simp [classCounts, he]

/-- C9 amended: the written manifest records the ordered class taxonomy
and the split paths (and the class count), but no per-class box counts;
the reported per-class counts are computed from the in-memory label lines,
and they agree with a scan of the written label artifacts exactly under
the no-loss conditions — every selected image's file exists and the two
splits, free of duplicates, cover every labelled image (they may also
contain background images, whose empty label files contribute nothing). -/
theorem manifest_taxonomy_and_count_provenance [DecidableEq α]
    (outPath : String) (available train val : List α)
    (yolo : List (α × List YoloLine)) (i : ℤ)
    (hav : ∀ x ∈ train ++ val, x ∈ available)
    (hnd : (train ++ val).Nodup)
    (hcover : ∀ k ∈ yolo.map Prod.fst, k ∈ train ++ val)
    (hknd : (yolo.map Prod.fst).Nodup) :
    (datasetManifest outPath).names = CLASS_NAMES ∧
    (datasetManifest outPath).nc = CLASS_NAMES.length ∧
    (datasetManifest outPath).train = "images/train" ∧
    (datasetManifest outPath).val = "images/val" ∧
    classCounts (writtenLabels available train yolo ++
      writtenLabels available val yolo) i = classCounts yolo i := by
  refine ⟨rfl, rfl, rfl, rfl, ?_⟩
  have hwl : ∀ S : List α, (∀ x ∈ S, x ∈ available) →
      writtenLabels available S yolo = S.map
        (fun k => (k, ((yolo.find? (fun p => p.1 = k)).map Prod.snd).getD [])) := by
    intro S hS
    unfold writtenLabels
    rw [List.filter_eq_self.2]
    intro x hx
    simpa using hS x hx
  rw [hwl train (fun x hx => hav x (List.mem_append.2 (Or.inl hx))),
    hwl val (fun x hx => hav x (List.mem_append.2 (Or.inr hx))),
    ← List.map_append]
  have hstep := (List.filter_append_perm
    (fun x => decide (x ∈ yolo.map Prod.fst)) (train ++ val)).map
    (fun k => (k, ((yolo.find? (fun p => p.1 = k)).map Prod.snd).getD []))
  have hpermkeys : ((train ++ val).filter
      (fun x => decide (x ∈ yolo.map Prod.fst))).Perm (yolo.map Prod.fst) := by
    rw [List.perm_ext_iff_of_nodup (hnd.filter _) hknd]
    intro a
    simp only [List.mem_filter, decide_eq_true_eq]
    constructor
    · rintro ⟨-, ha⟩
      exact ha
    · intro ha
      exact ⟨hcover a ha, ha⟩
  have h0 : classCounts (((train ++ val).filter
      (fun x => !decide (x ∈ yolo.map Prod.fst))).map
      (fun k => (k, ((yolo.find? (fun p => p.1 = k)).map Prod.snd).getD []))) i = 0 := by
    apply classCounts_eq_zero_of_empty
    intro e he
    obtain ⟨x, hx, rfl⟩ := List.mem_map.1 he
    rcases List.mem_filter.1 hx with ⟨-, hxq⟩
    have hxnot : x ∉ yolo.map Prod.fst := by simpa using hxq
    have hfind : yolo.find? (fun p => p.1 = x) = none := by
      rw [List.find?_eq_none]
      intro p hp hpx
      exact hxnot (List.mem_map.2 ⟨p, hp, by simpa using hpx⟩)
    simp [hfind]
  have hkey : classCounts (((train ++ val).filter
      (fun x => decide (x ∈ yolo.map Prod.fst))).map
      (fun k => (k, ((yolo.find? (fun p => p.1 = k)).map Prod.snd).getD []))) i =
      classCounts yolo i := by
    rw [classCounts_perm _ _ (hpermkeys.map _) i, map_lookup_self yolo hknd]
  rw [← classCounts_perm _ _ hstep i, List.map_append, classCounts_append, hkey, h0,
    Nat.add_zero]

/-- Example in-memory `yolo_labels` content with two images. -/
def exYolo : List (ℕ × List YoloLine) :=
  [(0, [⟨3, 1/2, 1/2, 1/4, 1/4⟩]), (1, [⟨5, 1/2, 1/2, 1/4, 1/4⟩])]

/-- Witness for the amended C9 at a concrete full materialization that
also places a background image (id 2, no label entry, empty label file)
in the train split. -/
theorem manifest_taxonomy_and_count_provenance_witness :
    (datasetManifest "yolo_dataset").names = CLASS_NAMES ∧
    (datasetManifest "yolo_dataset").nc = CLASS_NAMES.length ∧
    (datasetManifest "yolo_dataset").train = "images/train" ∧
    (datasetManifest "yolo_dataset").val = "images/val" ∧
    classCounts (writtenLabels [0, 1, 2] [1, 2] exYolo ++
      writtenLabels [0, 1, 2] [0] exYolo) 3 = classCounts exYolo 3 :=
  manifest_taxonomy_and_count_provenance "yolo_dataset" [0, 1, 2] [1, 2] [0] exYolo 3
    (by decide) (by decide) (by decide) (by decide)

end CheXpert
